import Mathlib

/-!
Shallow embedding of the flatten/unflatten pair of
`src/.config/nvim/flatten.py` and `src/.config/nvim/unflatten.py`.

Text is modelled as `List Char`.  The decoder of `unflatten.py` is built on
the Python regular expression

  `-- @FILE_START: (.+?)\n(.*?)-- @FILE_END: \1`   (re.DOTALL, re.findall)

whose semantics (leftmost match, lazy groups tried shortest first, the
back-reference anchoring the end sentinel to the captured path) is embedded
directly by `splitFirstOcc`, `scanPath` and `findall` below.
-/

set_option maxRecDepth 40000

def FILE_START_MARKER : List Char := ("-- @FILE_START: ").data

def FILE_END_MARKER : List Char := ("-- @FILE_END: ").data

def META_START_MARKER : List Char := ("-- @FLATTEN_METADATA_START").data

def META_END_MARKER : List Char := ("-- @FLATTEN_METADATA_END").data

/-- Split `s` around the first (leftmost) occurrence of `target`: returns
`some (pre, rest)` with `s = pre ++ target ++ rest` and no occurrence of
`target` starting inside `pre`.  This is the semantics of a lazy group
`(.*?)` (with re.DOTALL) followed by the literal `target`, and also of
Python `str.split(target, 1)` when it does split. -/
def splitFirstOcc (target : List Char) : List Char → Option (List Char × List Char)
  | [] => if target.isPrefixOf ([] : List Char) then some ([], []) else none
  | c :: s =>
    if target.isPrefixOf (c :: s) then some ([], (c :: s).drop target.length)
    else (splitFirstOcc target s).map (fun pr => (c :: pr.1, pr.2))

/-- Substring test: models the Python expression `target in s`. -/
def containsSub (target : List Char) : List Char → Bool
  | [] => target.isEmpty
  | c :: s => target.isPrefixOf (c :: s) || containsSub target s

/-- Backtracking of `(.+?)\n(.*?)-- @FILE_END: \1` after the start sentinel
(re.DOTALL): candidate path captures are tried shortest first, each one being
the accumulated characters before a literal newline; for a candidate path the
content group is lazy, so it ends at the first occurrence of the end sentinel
built from the captured path (`splitFirstOcc`); if no such occurrence exists
the engine backtracks and the newline becomes part of the path capture
(`.` matches newlines under re.DOTALL). -/
def scanPath : List Char → List Char → Option (List Char × List Char × List Char)
  | _, [] => none
  | acc, c :: s =>
    if c = '\n' ∧ acc ≠ [] then
      match splitFirstOcc (FILE_END_MARKER ++ acc) s with
      | some (content, rest) => some (acc, content, rest)
      | none => scanPath (acc ++ [c]) s
    else scanPath (acc ++ [c]) s

/-- The matches of `re.findall(r'-- @FILE_START: (.+?)\n(.*?)-- @FILE_END: \1',
content, re.DOTALL)`, in match order: the scan advances one character at a
time until the literal start sentinel matches, runs the lazy groups, and
continues after the end of a successful match (matches are non-overlapping). -/
def findall : List Char → List (List Char × List Char)
  | [] => []
  | c :: s =>
    if FILE_START_MARKER.isPrefixOf (c :: s) then
      match h : scanPath [] ((c :: s).drop FILE_START_MARKER.length) with
      | some (path, content, rest) => (path, content) :: findall rest
      | none => findall s
    else findall s
termination_by s => s.length
decreasing_by
  · have key1 : ∀ (t s : List Char) pre rest, splitFirstOcc t s = some (pre, rest) →
        rest.length + t.length ≤ s.length := by
      intro t s
      induction s with
      | nil =>
        intro pre rest hs
        cases t with
        | nil => simp_all [splitFirstOcc]
        | cons a as => simp [splitFirstOcc, List.isPrefixOf] at hs
      | cons a s ih =>
        intro pre rest hs
        by_cases hp : t.isPrefixOf (a :: s)
        · simp [splitFirstOcc, hp] at hs
          have hlen : t.length ≤ (a :: s).length :=
            (List.isPrefixOf_iff_prefix.mp hp).length_le
          rw [← hs.2, List.length_drop]
          omega
        · simp [splitFirstOcc, hp] at hs
          obtain ⟨pr, hpr, hrest⟩ := hs
          have := ih pr rest hpr
          simp only [List.length_cons]
          omega
    have key2 : ∀ (s acc p ct rs : List Char), scanPath acc s = some (p, ct, rs) →
        rs.length < s.length := by
      intro s
      induction s with
      | nil => intro acc p ct rs hr; simp [scanPath] at hr
      | cons a s ih =>
        intro acc p ct rs hr
        rw [scanPath] at hr
        split at hr
        · split at hr
          · rename_i content rest heq
            cases hr
            have := key1 _ _ _ _ heq
            have hem : 0 < (FILE_END_MARKER ++ acc).length := by
              simp [FILE_END_MARKER]
            simp only [List.length_cons]
            omega
          · have := ih _ _ _ _ hr
            simp only [List.length_cons]
            omega
        · have := ih _ _ _ _ hr
          simp only [List.length_cons]
          omega
    have h3 := key2 _ _ _ _ _ h
    have h4 : ((c :: s).drop FILE_START_MARKER.length).length ≤ (c :: s).length := by
      rw [List.length_drop]; omega
    omega
  · simp only [List.length_cons]; omega
  · simp only [List.length_cons]; omega

/-- Python dict assignment `d[k] = v` on an association list kept in insertion
order: an existing key keeps its position and gets the new value, a new key is
appended at the end. -/
def dictInsert (k v : List Char) : List (List Char × List Char) → List (List Char × List Char)
  | [] => [(k, v)]
  | kv :: rest => if kv.1 = k then (k, v) :: rest else kv :: dictInsert k v rest

/-- Python `s.rstrip(chr(10))`: removes every trailing newline character. -/
def rstripNewlines (s : List Char) : List Char :=
  (s.reverse.dropWhile (fun c => c = '\n')).reverse

/-- `parse_flattened_file` of unflatten.py: run the sentinel regex over the
bundle, strip the trailing newlines of each captured content, and build the
result dict in match order. -/
def parse_flattened_file (content : List Char) : List (List Char × List Char) :=
  (findall content).foldl (fun files m => dictInsert m.1 (rstripNewlines m.2) files) []

/-- `wrap_file_content` of flatten.py: `None` content (a missing file) produces
nothing, otherwise the content is framed by the start/end sentinel lines and a
blank separator line. -/
def wrap_file_content (filepath : List Char) (content : Option (List Char)) : List Char :=
  match content with
  | none => []
  | some content =>
    FILE_START_MARKER ++ filepath ++ '\n' :: content ++ '\n' ::
      (FILE_END_MARKER ++ filepath ++ '\n' :: '\n' :: [])

/-- The encode direction of claim C1: the concatenation of
`wrap_file_content` over an ordered Document Set. -/
def encodeDocs (docs : List (List Char × List Char)) : List Char :=
  (docs.map (fun d => wrap_file_content d.1 (some d.2))).flatten

/-- Python truthiness of a read result: `None` and the empty string are falsy.
This is the guard `if content:` of `generate_flat_config`. -/
def pythonTruthy : Option (List Char) → Bool
  | none => false
  | some c => !c.isEmpty

/-- `read_file` of flatten.py with the filesystem abstracted as a lookup
function from relative path to optional content: `none` models a file that
does not exist (the source prints a `[SKIP]` line and returns `None`),
`some c` models an existing file whose full text is `c`. -/
def read_file (disk : List Char → Option (List Char)) (filepath : List Char) :
    Option (List Char) :=
  disk filepath

def SPECIAL_FILES : List (List Char) := [("init.lua").data]

def CONFIG_FILES : List (List Char) :=
  [("lua/config/options.lua").data, ("lua/config/keymaps.lua").data,
   ("lua/config/autocmds.lua").data, ("lua/config/lazy.lua").data]

def PLUGIN_LOADER : List (List Char) := [("lua/plugins/init.lua").data]

def PLUGIN_FILES : List (List Char) :=
  [("lua/plugins/colorscheme.lua").data, ("lua/plugins/ui.lua").data,
   ("lua/plugins/editor.lua").data, ("lua/plugins/telescope.lua").data,
   ("lua/plugins/lsp.lua").data, ("lua/plugins/completion.lua").data,
   ("lua/plugins/flash.lua").data, ("lua/plugins/git.lua").data,
   ("lua/plugins/copilot.lua").data, ("lua/plugins/aerial.lua").data,
   ("lua/plugins/diffview.lua").data, ("lua/plugins/oil.lua").data,
   ("lua/plugins/treesitter-textobjects.lua").data]

def ALL_FILES : List (List Char) :=
  SPECIAL_FILES ++ CONFIG_FILES ++ PLUGIN_LOADER ++ PLUGIN_FILES

/-- Python `', '.join(l)`. -/
def commaJoin (l : List (List Char)) : List Char :=
  (l.intersperse ((", ").data)).flatten

def eqLine : List Char := List.replicate 80 '='

def hashLine : List Char := ("-- ").data ++ List.replicate 76 '#'

/-- Python format `{name:^72}`: centre in a field of width 72, the extra
space going to the right; a longer string is returned unchanged. -/
def center72 (s : List Char) : List Char :=
  if 72 ≤ s.length then s
  else
    List.replicate ((72 - s.length) / 2) ' ' ++ s ++
      List.replicate (72 - s.length - (72 - s.length) / 2) ' '

/-- The banner comment of `generate_flat_config` (the leading f-string of the
source, with its `timestamp` and `NVIM_CONFIG_DIR` interpolations as
parameters), up to and including the blank line after the closing `--]]`. -/
def bannerHeader (timestamp sourceDir : List Char) : List Char :=
  ("--[[\n").data ++ eqLine ++ ("\n  FLATTENED NEOVIM CONFIGURATION\n").data ++ eqLine ++
  ("\n\n  This is an auto-generated single-file version of a modular Neovim config.\n  \n  Generated: ").data ++
  timestamp ++ ("\n  Source:    ").data ++ sourceDir ++
  ("\n\n  FILE MARKERS:\n    Each original file is wrapped with markers:\n      -- @FILE_START: path/to/file.lua\n      ... original file contents ...\n      -- @FILE_END: path/to/file.lua\n\n  TO RECONSTRUCT THE MODULAR CONFIG:\n    Run: python unflatten.py init-flat.lua [output_dir]\n\n  WARNING: \n    This flattened file will NOT work as a direct init.lua replacement!\n    It's meant for sharing/backup. The file markers break the Lua syntax.\n    Use unflatten.py to restore the modular structure before using.\n\n  ORIGINAL DIRECTORY STRUCTURE:\n    ~/.config/nvim/\n    ├── init.lua                 # Entry point\n    └── lua/\n        ├── config/              # Core settings\n        │   ├── options.lua      # Editor options\n        │   ├── keymaps.lua      # Keyboard shortcuts\n        │   ├── autocmds.lua     # Auto commands\n        │   └── lazy.lua         # Plugin manager bootstrap\n        └── plugins/             # Plugin configurations\n            ├── init.lua         # Plugin loader\n            ├── colorscheme.lua  # Theme\n            ├── ui.lua           # UI enhancements\n            ├── editor.lua       # Editor plugins\n            ├── telescope.lua    # Fuzzy finder\n            ├── lsp.lua          # Language servers\n            ├── completion.lua   # Autocompletion\n            ├── flash.lua        # Navigation\n            ├── git.lua          # Git integration\n            ├── copilot.lua      # AI assistant\n            ├── aerial.lua       # Code outline\n            ├── diffview.lua     # Diff viewer\n            ├── oil.lua          # File explorer\n            └── treesitter-textobjects.lua\n\n").data ++
  eqLine ++ ("\n--]]\n\n").data

/-- The machine-readable metadata block of `generate_flat_config` (source
lines 179-185): note that `file_count` and `files` are computed from the
fixed list `ALL_FILES`, before any file is read. -/
def metadataBlock (timestamp sourceDir : List Char) : List Char :=
  META_START_MARKER ++ ("\n-- generator: flatten.py\n-- timestamp: ").data ++ timestamp ++
  ("\n-- source_dir: ").data ++ sourceDir ++
  ("\n-- file_count: ").data ++ (toString ALL_FILES.length).data ++
  ("\n-- files: ").data ++ commaJoin ALL_FILES ++
  ('\n' :: META_END_MARKER) ++ ("\n\n").data

def categories : List (List Char × List (List Char)) :=
  [(("ENTRY POINT").data, SPECIAL_FILES),
   (("CORE CONFIGURATION").data, CONFIG_FILES),
   (("PLUGIN LOADER").data, PLUGIN_LOADER),
   (("PLUGIN SPECIFICATIONS").data, PLUGIN_FILES)]

/-- The cosmetic category banner `generate_flat_config` emits before each
file group. -/
def categoryHeader (name : List Char) : List Char :=
  '\n' :: hashLine ++ ("\n-- #  ").data ++ center72 name ++ ("  #\n").data ++
    hashLine ++ ("\n\n").data

/-- The per-category file loop of `generate_flat_config`:
`content = read_file(filepath); if content: output += wrap_file_content(...)`.
Note the guard is Python truthiness, so an existing but empty file emits
nothing, exactly like a missing one. -/
def generate_sections (disk : List Char → Option (List Char))
    (files : List (List Char)) : List Char :=
  (files.map (fun filepath =>
    let content := read_file disk filepath
    if pythonTruthy content then wrap_file_content filepath content else [])).flatten

def footerText : List Char :=
  ("\n--[[\n").data ++ eqLine ++
  ("\n  END OF FLATTENED CONFIGURATION\n  \n  To reconstruct: python unflatten.py init-flat.lua [output_dir]\n").data ++
  eqLine ++ ("\n--]]\n").data

/-- `generate_flat_config` of flatten.py: banner, metadata block, the four
category groups (header plus wrapped sections of the files that read as
truthy), and the footer. -/
def generate_flat_config (disk : List Char → Option (List Char))
    (timestamp sourceDir : List Char) : List Char :=
  bannerHeader timestamp sourceDir ++ metadataBlock timestamp sourceDir ++
  (categories.map (fun cat => categoryHeader cat.1 ++ generate_sections disk cat.2)).flatten ++
  footerText

/-- The outcome of `main` of flatten.py after argument handling: it exits
with status 1 when `init.lua` is absent from the config directory, and
otherwise writes the generated bundle and exits 0 (`some bundle`). Missing
files other than `init.lua` never make it fail. -/
def flatten_main (disk : List Char → Option (List Char))
    (timestamp sourceDir : List Char) : Option (List Char) :=
  if (disk (("init.lua").data)).isSome then
    some (generate_flat_config disk timestamp sourceDir)
  else none

/-- Python `s.strip()` (both ends, whitespace). -/
def pythonStrip (s : List Char) : List Char :=
  ((s.dropWhile Char.isWhitespace).reverse.dropWhile Char.isWhitespace).reverse

/-- The line loop of `parse_metadata`: split the captured block on newlines,
keep the stripped lines of the form `-- key: value`, and fill the dict in
order.  The guard `line.startswith('-- ') and ': ' in line` makes the inner
split (Python `line[3:].split(': ', 1)`) total. -/
def parseMetaLines (s : List Char) : List (List Char × List Char) :=
  (s.splitOn '\n').foldl (fun metadata line =>
    let line := pythonStrip line
    if (("-- ").data).isPrefixOf line && containsSub ((": ").data) line then
      match splitFirstOcc ((": ").data) (line.drop 3) with
      | some (key, value) => dictInsert key value metadata
      | none => metadata
    else metadata) []

/-- `parse_metadata` of unflatten.py: the regex
`-- @FLATTEN_METADATA_START\n(.*?)-- @FLATTEN_METADATA_END` under re.DOTALL
via `re.search` (leftmost match, lazy content), then the key/value line loop.
An absent block gives the empty dict, no error. -/
def parse_metadata (content : List Char) : List (List Char × List Char) :=
  match splitFirstOcc (META_START_MARKER ++ ['\n']) content with
  | none => []
  | some (_, afterStart) =>
    match splitFirstOcc META_END_MARKER afterStart with
    | none => []
    | some (metaContent, _) => parseMetaLines metaContent

/-- Python `s.endswith(chr(10))`. -/
def endsWithNewline (s : List Char) : Bool :=
  match s.getLast? with
  | some c => c = '\n'
  | none => false

/-- How many newline characters `s` ends with. -/
def trailingNewlineCount (s : List Char) : Nat :=
  (s.reverse.takeWhile (fun c => c = '\n')).length

/-- The file-writing step of `unflatten` (source lines 148-152): write the
decoded content and append one newline when the content does not already end
with one. -/
def writtenFileContent (c : List Char) : List Char :=
  if endsWithNewline c then c else c ++ ['\n']

/-- Outcome of `unflatten` of unflatten.py with the filesystem abstracted:
`fatal` is the `sys.exit(1)` path (non-zero exit status, and it is reached
before the output directory is created or any file is written), `ok fs`
carries the (path, bytes written) pairs materialised under the output root. -/
inductive UnflattenResult where
  | fatal : UnflattenResult
  | ok : List (List Char × List Char) → UnflattenResult
deriving DecidableEq

/-- `unflatten` of unflatten.py: parse the bundle; exit fatally when no file
was extracted (before any write), otherwise write every decoded document,
each with `writtenFileContent` applied. -/
def unflatten (content : List Char) : UnflattenResult :=
  let files := parse_flattened_file content
  if files.isEmpty then UnflattenResult.fatal
  else UnflattenResult.ok (files.map (fun d => (d.1, writtenFileContent d.2)))

/-- The files an `unflatten` run wrote. -/
def writtenFiles : UnflattenResult → List (List Char × List Char)
  | UnflattenResult.fatal => []
  | UnflattenResult.ok fs => fs

/-- Proof fixture: a sample timestamp string, standing in for the
`datetime.now()` value of flatten.py. -/
def SAMPLE_TIMESTAMP : List Char := ("2024-01-01 00:00:00").data

/-- Proof fixture: a sample `NVIM_CONFIG_DIR` string. -/
def SAMPLE_SOURCE_DIR : List Char := ("/home/user/.config/nvim").data

/-- Proof fixture: the body of the metadata block emitted for
`SAMPLE_TIMESTAMP` and `SAMPLE_SOURCE_DIR` (the text strictly between the
`-- @FLATTEN_METADATA_START` line and the `-- @FLATTEN_METADATA_END`
sentinel). -/
def METADATA_INNER : List Char :=
  ("-- generator: flatten.py\n-- timestamp: 2024-01-01 00:00:00\n-- source_dir: /home/user/.config/nvim\n-- file_count: 19\n-- files: init.lua, lua/config/options.lua, lua/config/keymaps.lua, lua/config/autocmds.lua, lua/config/lazy.lua, lua/plugins/init.lua, lua/plugins/colorscheme.lua, lua/plugins/ui.lua, lua/plugins/editor.lua, lua/plugins/telescope.lua, lua/plugins/lsp.lua, lua/plugins/completion.lua, lua/plugins/flash.lua, lua/plugins/git.lua, lua/plugins/copilot.lua, lua/plugins/aerial.lua, lua/plugins/diffview.lua, lua/plugins/oil.lua, lua/plugins/treesitter-textobjects.lua\n").data

/-- Proof-layer predicate: no occurrence of `t` starts inside `m`, whatever
text follows `m` (occurrences may not even span past the end of `m`). -/
def noOccInto (t m : List Char) : Prop :=
  ∀ p R, p < m.length → ¬ (t.isPrefixOf (m.drop p ++ R) = true)

theorem findall_cons_no_match (c : Char) (s : List Char)
    (h : FILE_START_MARKER.isPrefixOf (c :: s) = false) :
    findall (c :: s) = findall s := by
  rw [findall]
  simp [h]

theorem findall_cons_match (c : Char) (s path content rest : List Char)
    (h : FILE_START_MARKER.isPrefixOf (c :: s) = true)
    (h2 : scanPath [] ((c :: s).drop FILE_START_MARKER.length) = some (path, content, rest)) :
    findall (c :: s) = (path, content) :: findall rest := by
  rw [findall]
  simp only [h, if_true]
  split
  · rename_i p2 c2 r2 heq
    rw [h2] at heq
    obtain ⟨h3, h4, h5⟩ : path = p2 ∧ content = c2 ∧ rest = r2 := by
      cases heq; exact ⟨rfl, rfl, rfl⟩
    rw [h3, h4, h5]
  · rename_i heq
    rw [h2] at heq
    cases heq

theorem containsSub_eq_true_iff (t s : List Char) :
    containsSub t s = true ↔ ∃ u v, s = u ++ t ++ v := by
  induction s with
  | nil =>
    constructor
    · intro h
      simp [containsSub, List.isEmpty_iff] at h
      exact ⟨[], [], by simp [h]⟩
    · rintro ⟨u, v, huv⟩
      have := huv.symm
      simp [List.append_eq_nil] at this
      simp [containsSub, this.2.1]
  | cons c s ih =>
    constructor
    · intro h
      simp only [containsSub, Bool.or_eq_true] at h
      rcases h with h | h
      · obtain ⟨w, hw⟩ := List.isPrefixOf_iff_prefix.mp h
        exact ⟨[], w, by simp [← hw]⟩
      · obtain ⟨u, v, huv⟩ := ih.mp h
        exact ⟨c :: u, v, by simp [huv]⟩
    · rintro ⟨u, v, huv⟩
      simp only [containsSub, Bool.or_eq_true]
      cases u with
      | nil =>
        left
        exact List.isPrefixOf_iff_prefix.mpr ⟨v, by simp [huv]⟩
      | cons x u =>
        right
        simp at huv
        exact ih.mpr ⟨u, v, by rw [List.append_assoc]; exact huv.2⟩

theorem containsSub_nil_left (s : List Char) : containsSub [] s = true := by
  cases s <;> simp [containsSub, List.isPrefixOf]

theorem containsSub_mono_left (t u s : List Char)
    (h : containsSub (t ++ u) s = true) : containsSub t s = true := by
  obtain ⟨a, b, hab⟩ := (containsSub_eq_true_iff _ _).mp h
  exact (containsSub_eq_true_iff _ _).mpr ⟨a, u ++ b, by simp [hab]⟩

theorem containsSub_snoc_nl (t m : List Char) (hnl : ('\n') ∉ t)
    (h : containsSub t m = false) : containsSub t (m ++ ['\n']) = false := by
  cases hc : containsSub t (m ++ ['\n']) with
  | false => rfl
  | true =>
    exfalso
    have ht : t ≠ [] := by
      intro he
      rw [he, containsSub_nil_left] at h
      cases h
    obtain ⟨u, v, huv⟩ := (containsSub_eq_true_iff _ _).mp hc
    rcases List.eq_nil_or_concat v with hv | ⟨w, a, hw⟩
    · rw [hv, List.append_nil] at huv
      have hlast : (m ++ ['\n']).getLast? = some '\n' := List.getLast?_concat _
      rw [huv, List.getLast?_append_of_ne_nil _ ht] at hlast
      have hmem : ('\n') ∈ t.getLast? := by rw [hlast]; rfl
      obtain ⟨hne, heq⟩ := List.mem_getLast?_eq_getLast hmem
      exact hnl (heq ▸ List.getLast_mem hne)
    · rw [hw] at huv
      have huv2 : m ++ ['\n'] = (u ++ t ++ w) ++ [a] := by simp [huv]
      have := List.append_inj' huv2 rfl
      have hm : containsSub t m = true :=
        (containsSub_eq_true_iff _ _).mpr ⟨u, w, this.1⟩
      rw [h] at hm
      cases hm

theorem isPrefixOf_stops_at_newline :
    ∀ (c t R : List Char), ('\n') ∉ t → t <+: (c ++ '\n' :: R) → t <+: c := by
  intro c
  induction c with
  | nil =>
    intro t R h1 h2
    cases t with
    | nil => exact List.nil_prefix
    | cons a as =>
      rw [List.nil_append, List.cons_prefix_cons] at h2
      obtain ⟨ha, _⟩ := h2
      subst ha
      exact absurd (List.mem_cons_self _ _) h1
  | cons x c ih =>
    intro t R h1 h2
    cases t with
    | nil => exact List.nil_prefix
    | cons a as =>
      rw [List.cons_append, List.cons_prefix_cons] at h2
      exact List.cons_prefix_cons.mpr
        ⟨h2.1, ih as R (fun hm => h1 (List.mem_cons_of_mem _ hm)) h2.2⟩

theorem noOccInto_tail (t : List Char) (c : Char) (m : List Char)
    (h : noOccInto t (c :: m)) : noOccInto t m := by
  intro p R hp
  have := h (p + 1) R (by simp; omega)
  simpa using this

theorem noOccInto_head (t : List Char) (c : Char) (m R : List Char)
    (h : noOccInto t (c :: m)) : ¬ (t.isPrefixOf ((c :: m) ++ R) = true) := by
  have := h 0 R (by simp)
  simpa using this

theorem noOccInto_of (t m : List Char) (h1 : ('\n') ∉ t) (h2 : t ≠ [])
    (h3 : containsSub t m = false) (h4 : m.getLast? = some '\n') :
    noOccInto t m := by
  intro p R hp hpre
  have hd : m.drop p ≠ [] := by
    have : (m.drop p).length = m.length - p := List.length_drop _ _
    intro he
    rw [he] at this
    simp at this
    omega
  obtain ⟨mid, a, hma⟩ := (List.eq_nil_or_concat (m.drop p)).resolve_left hd
  rw [List.concat_eq_append] at hma
  have hm_decomp : m = m.take p ++ (mid ++ [a]) := by
    rw [← hma, List.take_append_drop]
  have ha : a = '\n' := by
    have hl : m.getLast? = some a := by
      rw [hm_decomp, ← List.append_assoc]
      exact List.getLast?_concat _
    rw [h4] at hl
    exact (Option.some_inj.mp hl).symm
  subst ha
  rw [hma] at hpre
  have hpre2 : t <+: (mid ++ '\n' :: R) := by
    rw [List.isPrefixOf_iff_prefix] at hpre
    rw [List.append_assoc, List.singleton_append] at hpre
    exact hpre
  obtain ⟨w, hw⟩ := isPrefixOf_stops_at_newline mid t R h1 hpre2
  have hc : containsSub t m = true := by
    refine (containsSub_eq_true_iff _ _).mpr ⟨m.take p, w ++ ['\n'], ?_⟩
    conv_lhs => rw [hm_decomp]
    rw [← hw]
    simp only [List.append_assoc]
  rw [h3] at hc
  cases hc

theorem splitFirstOcc_of_isPrefixOf (t s : List Char) (h : t.isPrefixOf s = true) :
    splitFirstOcc t s = some ([], s.drop t.length) := by
  cases s with
  | nil =>
    simp [splitFirstOcc, h]
  | cons c s => simp [splitFirstOcc, h]

theorem splitFirstOcc_exact (t pre rest : List Char) (hno : noOccInto t pre) :
    splitFirstOcc t (pre ++ (t ++ rest)) = some (pre, rest) := by
  induction pre with
  | nil =>
    rw [List.nil_append,
      splitFirstOcc_of_isPrefixOf t (t ++ rest)
        (List.isPrefixOf_iff_prefix.mpr (List.prefix_append t rest))]
    rw [List.drop_left]
  | cons a pre ih =>
    have h0 : ¬ t.isPrefixOf (a :: (pre ++ (t ++ rest))) = true := by
      have := noOccInto_head t a pre (t ++ rest) hno
      rw [List.cons_append] at this
      exact this
    rw [List.cons_append, splitFirstOcc, if_neg h0,
      ih (noOccInto_tail t a pre hno)]
    rfl

theorem splitFirstOcc_prepend (t m s : List Char) (hno : noOccInto t m) :
    splitFirstOcc t (m ++ s) =
      (splitFirstOcc t s).map (fun pr => (m ++ pr.1, pr.2)) := by
  induction m with
  | nil =>
    rw [List.nil_append]
    cases splitFirstOcc t s with
    | none => rfl
    | some pr => simp
  | cons a m ih =>
    have h0 : ¬ t.isPrefixOf (a :: (m ++ s)) = true := by
      have := noOccInto_head t a m s hno
      rw [List.cons_append] at this
      exact this
    rw [List.cons_append, splitFirstOcc, if_neg h0, ih (noOccInto_tail t a m hno)]
    cases splitFirstOcc t s with
    | none => rfl
    | some pr => simp

theorem findall_prepend (m s : List Char) (hno : noOccInto FILE_START_MARKER m) :
    findall (m ++ s) = findall s := by
  induction m with
  | nil => rw [List.nil_append]
  | cons a m ih =>
    have h0 : ¬ FILE_START_MARKER.isPrefixOf (a :: (m ++ s)) = true := by
      have := noOccInto_head _ a m s hno
      rw [List.cons_append] at this
      exact this
    rw [List.cons_append, findall_cons_no_match a (m ++ s) (Bool.eq_false_iff.mpr h0)]
    exact ih (noOccInto_tail _ a m hno)

theorem scanPath_complete :
    ∀ (p acc content tail : List Char), ('\n') ∉ p → ('\n') ∉ acc → acc ++ p ≠ [] →
    containsSub FILE_END_MARKER content = false →
    scanPath acc (p ++ '\n' :: (content ++ '\n' :: (FILE_END_MARKER ++ (acc ++ (p ++ tail))))) =
      some (acc ++ p, content ++ ['\n'], tail) := by
  intro p
  induction p with
  | nil =>
    intro acc content tail _ hacc hne hcontent
    rw [List.append_nil] at hne
    rw [List.nil_append, List.nil_append, List.append_nil]
    rw [scanPath, if_pos ⟨rfl, hne⟩]
    have hsplit :
        splitFirstOcc (FILE_END_MARKER ++ acc)
          (content ++ '\n' :: (FILE_END_MARKER ++ (acc ++ tail))) =
          some (content ++ ['\n'], tail) := by
      have hshape : content ++ '\n' :: (FILE_END_MARKER ++ (acc ++ tail)) =
          (content ++ ['\n']) ++ ((FILE_END_MARKER ++ acc) ++ tail) := by
        simp only [List.append_assoc, List.singleton_append]
      rw [hshape]
      refine splitFirstOcc_exact _ _ _ ?_
      refine noOccInto_of _ _ ?_ ?_ ?_ (List.getLast?_concat _)
      · intro hmem
        rcases List.mem_append.mp hmem with hm | hm
        · exact absurd hm (by decide)
        · exact hacc hm
      · simp [FILE_END_MARKER]
      · have hEM : containsSub FILE_END_MARKER (content ++ ['\n']) = false :=
          containsSub_snoc_nl _ _ (by decide) hcontent
        cases hfull : containsSub (FILE_END_MARKER ++ acc) (content ++ ['\n']) with
        | false => rfl
        | true =>
          rw [containsSub_mono_left _ _ _ hfull] at hEM
          cases hEM
    rw [hsplit]
  | cons a p ih =>
    intro acc content tail hp hacc hne hcontent
    have ha : a ≠ '\n' := fun h => hp (h ▸ List.mem_cons_self a p)
    have hshape : acc ++ (a :: p ++ tail) = (acc ++ [a]) ++ (p ++ tail) := by
      simp
    rw [List.cons_append, scanPath, if_neg (fun h => ha h.1), hshape]
    have := ih (acc ++ [a]) content tail
      (fun hm => hp (List.mem_cons_of_mem _ hm))
      (fun hm => by
        rcases List.mem_append.mp hm with hm | hm
        · exact hacc hm
        · exact ha (List.mem_singleton.mp hm).symm)
      (by simp)
      hcontent
    rw [this]
    simp

theorem findall_encodeDocs (docs : List (List Char × List Char))
    (h : ∀ d ∈ docs, d.1 ≠ [] ∧ ('\n') ∉ d.1 ∧ containsSub FILE_END_MARKER d.2 = false) :
    findall (encodeDocs docs) = docs.map (fun d => (d.1, d.2 ++ ['\n'])) := by
  induction docs with
  | nil =>
    rw [show encodeDocs [] = ([] : List Char) from rfl, findall]
    rfl
  | cons d ds ih =>
    obtain ⟨p, c⟩ := d
    obtain ⟨hp1, hp2, hc⟩ := h (p, c) (List.mem_cons_self _ _)
    have hbundle : encodeDocs ((p, c) :: ds) =
        FILE_START_MARKER ++
          (p ++ '\n' :: (c ++ '\n' :: (FILE_END_MARKER ++ (p ++ ('\n' :: '\n' :: encodeDocs ds))))) := by
      simp [encodeDocs, wrap_file_content, List.append_assoc]
    have hscan : scanPath []
        ((encodeDocs ((p, c) :: ds)).drop FILE_START_MARKER.length) =
        some (p, c ++ ['\n'], '\n' :: '\n' :: encodeDocs ds) := by
      rw [hbundle, List.drop_left]
      have := scanPath_complete p [] c ('\n' :: '\n' :: encodeDocs ds) hp2
        (by simp) (by simpa using hp1) hc
      simpa using this
    have hpre : FILE_START_MARKER.isPrefixOf (encodeDocs ((p, c) :: ds)) = true := by
      rw [hbundle]
      exact List.isPrefixOf_iff_prefix.mpr (List.prefix_append _ _)
    have hcons : ∃ s, encodeDocs ((p, c) :: ds) = '-' :: s := by
      refine ⟨("- @FILE_START: ").data ++
        (p ++ '\n' :: (c ++ '\n' :: (FILE_END_MARKER ++ (p ++ ('\n' :: '\n' :: encodeDocs ds))))), ?_⟩
      rw [hbundle]
      rfl
    obtain ⟨s, hs⟩ := hcons
    rw [hs] at hscan hpre ⊢
    rw [findall_cons_match _ _ _ _ _ hpre hscan]
    have hsep : findall ('\n' :: '\n' :: encodeDocs ds) = findall (encodeDocs ds) := by
      have := findall_prepend ['\n', '\n'] (encodeDocs ds)
        (noOccInto_of _ _ (by decide) (by decide) (by decide) (by decide))
      simpa using this
    rw [hsep, ih (fun d hd => h d (List.mem_cons_of_mem _ hd))]
    rfl

theorem dictInsert_fresh (k v : List Char) :
    ∀ (l : List (List Char × List Char)), (∀ kv ∈ l, kv.1 ≠ k) →
    dictInsert k v l = l ++ [(k, v)] := by
  intro l
  induction l with
  | nil => intro; rfl
  | cons kv l ih =>
    intro h
    rw [dictInsert, if_neg (h kv (List.mem_cons_self _ _)), List.cons_append,
      ih (fun x hx => h x (List.mem_cons_of_mem _ hx))]

theorem foldl_dictInsert_nodup (f : List Char → List Char) :
    ∀ (ms : List (List Char × List Char)) (acc : List (List Char × List Char)),
    (∀ m ∈ ms, ∀ kv ∈ acc, kv.1 ≠ m.1) → (ms.map Prod.fst).Nodup →
    ms.foldl (fun fs m => dictInsert m.1 (f m.2) fs) acc =
      acc ++ ms.map (fun m => (m.1, f m.2)) := by
  intro ms
  induction ms with
  | nil => intro acc _ _; simp
  | cons m ms ih =>
    intro acc hfresh hnodup
    rw [List.foldl_cons]
    rw [dictInsert_fresh _ _ acc (fun kv hkv => hfresh m (List.mem_cons_self _ _) kv hkv)]
    rw [List.map_cons, List.nodup_cons] at hnodup
    rw [ih (acc ++ [(m.1, f m.2)])
      (fun m2 hm2 kv hkv => by
        rcases List.mem_append.mp hkv with hkv | hkv
        · exact hfresh m2 (List.mem_cons_of_mem _ hm2) kv hkv
        · rw [List.mem_singleton.mp hkv]
          intro heq
          exact hnodup.1 (heq ▸ List.mem_map_of_mem Prod.fst hm2))
      hnodup.2]
    simp

theorem rstripNewlines_append_nl (c : List Char) :
    rstripNewlines (c ++ ['\n']) = rstripNewlines c := by
  unfold rstripNewlines
  rw [List.reverse_append]
  simp [List.dropWhile]

theorem rstripNewlines_not_endsWith (c : List Char) :
    endsWithNewline (rstripNewlines c) = false := by
  unfold endsWithNewline rstripNewlines
  rw [List.getLast?_reverse]
  cases hh : (c.reverse.dropWhile (fun x => x = '\n')).head? with
  | none => rfl
  | some a =>
    obtain ⟨l, hl⟩ : ∃ l, c.reverse.dropWhile (fun x => x = '\n') = a :: l := by
      cases hd : c.reverse.dropWhile (fun x => x = '\n') with
      | nil => rw [hd] at hh; cases hh
      | cons x l => rw [hd] at hh; exact ⟨l, by rw [Option.some_inj.mp hh.symm]⟩
    have := List.head?_dropWhile_not (fun x : Char => x = '\n') c.reverse
    rw [hh] at this
    simpa using this

theorem rstrip_replicate_decomp (c : List Char) :
    c = rstripNewlines c ++ List.replicate (trailingNewlineCount c) '\n' := by
  have hsplit := List.takeWhile_append_dropWhile (fun x : Char => x = '\n') c.reverse
  have hrep : c.reverse.takeWhile (fun x : Char => x = '\n') =
      List.replicate (trailingNewlineCount c) '\n' := by
    unfold trailingNewlineCount
    refine List.eq_replicate_of_mem ?_
    intro b hb
    have := List.mem_takeWhile_imp hb
    simpa using this
  conv_lhs => rw [← List.reverse_reverse c, ← hsplit]
  rw [List.reverse_append, hrep]
  unfold rstripNewlines
  rw [List.reverse_replicate]

theorem trailing_zero_of_not_endsWith (c : List Char) (h : endsWithNewline c = false) :
    trailingNewlineCount c = 0 := by
  unfold trailingNewlineCount
  unfold endsWithNewline at h
  cases hr : c.reverse with
  | nil => rfl
  | cons a l =>
    have hlast : c.getLast? = some a := by
      rw [← List.head?_reverse, hr]; rfl
    rw [hlast] at h
    simp at h
    rw [List.takeWhile_cons]
    simp [h]

theorem rstrip_eq_self_of_not_endsWith (c : List Char) (h : endsWithNewline c = false) :
    rstripNewlines c = c := by
  have := rstrip_replicate_decomp c
  rw [trailing_zero_of_not_endsWith c h] at this
  simpa using this.symm

theorem trailing_pos_of_endsWith (c : List Char) (h : endsWithNewline c = true) :
    1 ≤ trailingNewlineCount c := by
  unfold endsWithNewline at h
  unfold trailingNewlineCount
  cases hr : c.reverse with
  | nil =>
    exfalso
    have : c = [] := by
      have := congrArg List.reverse hr
      simpa using this
    rw [this] at h
    cases h
  | cons a l =>
    have hlast : c.getLast? = some a := by
      rw [← List.head?_reverse, hr]; rfl
    rw [hlast] at h
    simp at h
    rw [List.takeWhile_cons]
    simp [h]

theorem parse_encodeDocs (docs : List (List Char × List Char))
    (h : ∀ d ∈ docs, d.1 ≠ [] ∧ ('\n') ∉ d.1 ∧ containsSub FILE_END_MARKER d.2 = false)
    (hnodup : (docs.map Prod.fst).Nodup) :
    parse_flattened_file (encodeDocs docs) =
      docs.map (fun d => (d.1, rstripNewlines d.2)) := by
  unfold parse_flattened_file
  rw [findall_encodeDocs docs h]
  rw [foldl_dictInsert_nodup rstripNewlines _ [] (by simp)
    (by simpa [List.map_map, Function.comp] using hnodup)]
  rw [List.nil_append, List.map_map]
  refine List.map_congr_left ?_
  intro d _
  simp [Function.comp, rstripNewlines_append_nl]

theorem mem_dictInsert (k v : List Char) :
    ∀ (l : List (List Char × List Char)) (x : List Char × List Char),
    x ∈ dictInsert k v l → x = (k, v) ∨ x ∈ l := by
  intro l
  induction l with
  | nil => intro x hx; simpa [dictInsert] using hx
  | cons kv l ih =>
    intro x hx
    rw [dictInsert] at hx
    by_cases hk : kv.1 = k
    · rw [if_pos hk] at hx
      rcases List.mem_cons.mp hx with hx | hx
      · exact Or.inl hx
      · exact Or.inr (List.mem_cons_of_mem _ hx)
    · rw [if_neg hk] at hx
      rcases List.mem_cons.mp hx with hx | hx
      · exact Or.inr (hx ▸ List.mem_cons_self _ _)
      · rcases ih x hx with hx | hx
        · exact Or.inl hx
        · exact Or.inr (List.mem_cons_of_mem _ hx)

theorem mem_foldl_dictInsert (f : List Char → List Char) :
    ∀ (ms : List (List Char × List Char)) (acc : List (List Char × List Char))
      (x : List Char × List Char),
    x ∈ ms.foldl (fun fs m => dictInsert m.1 (f m.2) fs) acc →
      x ∈ acc ∨ ∃ m ∈ ms, x = (m.1, f m.2) := by
  intro ms
  induction ms with
  | nil => intro acc x hx; exact Or.inl hx
  | cons m ms ih =>
    intro acc x hx
    rw [List.foldl_cons] at hx
    rcases ih _ x hx with hx | ⟨m2, hm2, hx⟩
    · rcases mem_dictInsert _ _ _ _ hx with hx | hx
      · exact Or.inr ⟨m, List.mem_cons_self _ _, hx⟩
      · exact Or.inl hx
    · exact Or.inr ⟨m2, List.mem_cons_of_mem _ hm2, hx⟩

theorem parse_flattened_file_mem (s : List Char) (pc : List Char × List Char)
    (h : pc ∈ parse_flattened_file s) :
    ∃ m ∈ findall s, pc = (m.1, rstripNewlines m.2) := by
  unfold parse_flattened_file at h
  rcases mem_foldl_dictInsert rstripNewlines (findall s) [] pc h with hx | hx
  · cases hx
  · exact hx

theorem findall_eq_nil_of_no_marker (s : List Char)
    (h : containsSub FILE_START_MARKER s = false) : findall s = [] := by
  induction s with
  | nil => rw [findall]
  | cons c s ih =>
    rw [containsSub] at h
    rw [Bool.or_eq_false_iff] at h
    rw [findall_cons_no_match c s h.1]
    exact ih h.2

theorem splitFirstOcc_eq_none_of_no_occ (t : List Char) :
    ∀ (s : List Char), containsSub t s = false → splitFirstOcc t s = none := by
  intro s
  induction s with
  | nil =>
    intro h
    rw [containsSub] at h
    rw [splitFirstOcc, if_neg]
    intro hp
    rw [List.isPrefixOf_iff_prefix] at hp
    rw [List.prefix_nil.mp hp] at h
    cases h
  | cons c s ih =>
    intro h
    rw [containsSub, Bool.or_eq_false_iff] at h
    rw [splitFirstOcc, if_neg (by rw [h.1]; intro hx; cases hx), ih h.2]
    rfl

theorem noOccInto_extend (t u m : List Char) (h : noOccInto t m) :
    noOccInto (t ++ u) m := by
  intro p R hp hpre
  refine h p R hp ?_
  rw [List.isPrefixOf_iff_prefix] at hpre ⊢
  exact (List.prefix_append t u).trans hpre

/-- Claim C1, counterexample: the Document Set `[("a.lua", "x\n\n")]` has a
unique, non-empty logical path and content that already ends in a line break,
yet decode(encode(..)) yields content `"x"` and the materialised file holds
`"x\n"`: the decoder removed both trailing newlines of the original (and the
materializer restored only one), so the round trip is not the identity and the
only discrepancy is not the claimed gain of one line break on
newline-free content. -/
theorem C1_counterexample :
    parse_flattened_file (encodeDocs [(("a.lua").data, ("x\n\n").data)]) =
      [(("a.lua").data, ("x").data)] ∧
    (parse_flattened_file (encodeDocs [(("a.lua").data, ("x\n\n").data)])).map
        (fun d => (d.1, writtenFileContent d.2)) =
      [(("a.lua").data, ("x\n").data)] ∧
    ("x\n").data ≠ ("x\n\n").data ∧ ("x").data ≠ ("x\n\n").data := by
  have h := parse_encodeDocs [(("a.lua").data, ("x\n\n").data)] (by decide) (by decide)
  refine ⟨?_, ?_, by decide, by decide⟩
  · rw [h]; decide
  · rw [h]; decide

/-- Claim C1, amended: for a Document Set with unique, non-empty, newline-free
logical paths, whose contents contain no occurrence of the end-sentinel prefix
`-- @FILE_END: ` and end in at most one line break, decoding the encoded
bundle recovers every document in order with all trailing line breaks
stripped, and after materialization (which appends a line break exactly when
one is missing) each content equals the original, except that content lacking
a trailing line break gains exactly one. -/
theorem C1_roundtrip (docs : List (List Char × List Char))
    (hpaths : ∀ d ∈ docs, d.1 ≠ [] ∧ ('\n') ∉ d.1)
    (hnodup : (docs.map Prod.fst).Nodup)
    (hcontents : ∀ d ∈ docs,
      containsSub FILE_END_MARKER d.2 = false ∧ trailingNewlineCount d.2 ≤ 1) :
    parse_flattened_file (encodeDocs docs) =
      docs.map (fun d => (d.1, rstripNewlines d.2)) ∧
    (parse_flattened_file (encodeDocs docs)).map (fun d => (d.1, writtenFileContent d.2)) =
      docs.map (fun d => (d.1, if endsWithNewline d.2 then d.2 else d.2 ++ ['\n'])) := by
  have h := parse_encodeDocs docs
    (fun d hd => ⟨(hpaths d hd).1, (hpaths d hd).2, (hcontents d hd).1⟩) hnodup
  refine ⟨h, ?_⟩
  rw [h, List.map_map]
  refine List.map_congr_left ?_
  intro d hd
  simp only [Function.comp]
  have hwr : writtenFileContent (rstripNewlines d.2) = rstripNewlines d.2 ++ ['\n'] := by
    unfold writtenFileContent
    rw [rstripNewlines_not_endsWith]
    rfl
  rw [hwr]
  cases hE : endsWithNewline d.2 with
  | false =>
    rw [rstrip_eq_self_of_not_endsWith d.2 hE]
    rfl
  | true =>
    have h1 := trailing_pos_of_endsWith d.2 hE
    have h2 := (hcontents d hd).2
    have hone : trailingNewlineCount d.2 = 1 := by omega
    have hdec := rstrip_replicate_decomp d.2
    rw [hone] at hdec
    simp only [List.replicate] at hdec
    rw [if_pos rfl, ← hdec]

/-- Claim C1 witness: the amended round trip at the concrete Document Set
`[("a.txt", "hello\n"), ("b.txt", "")]`. -/
theorem C1_roundtrip_witness :
    parse_flattened_file
        (encodeDocs [(("a.txt").data, ("hello\n").data), (("b.txt").data, [])]) =
      [(("a.txt").data, ("hello").data), (("b.txt").data, [])] ∧
    (parse_flattened_file
        (encodeDocs [(("a.txt").data, ("hello\n").data), (("b.txt").data, [])])).map
        (fun d => (d.1, writtenFileContent d.2)) =
      [(("a.txt").data, ("hello\n").data), (("b.txt").data, ("\n").data)] := by
  have h := C1_roundtrip [(("a.txt").data, ("hello\n").data), (("b.txt").data, [])]
    (by decide) (by decide) (by decide)
  exact ⟨by rw [h.1]; decide, by rw [h.2]; decide⟩

/-- Claim C2 (the claim is right, the code has a bug): for any valid path, the
wrapped section of an empty document does contain the start sentinel line and
the end sentinel line with only the structural newline between them, and
decoding that section alone recovers the empty string — but the encoder
pipeline `generate_flat_config` guards the emission with Python truthiness
(`if content:`), so a file that exists with empty content produces a bundle
identical to the one produced when the file is missing: no wrapped section is
emitted for it at all. -/
theorem C2_empty_content :
    (∀ p : List Char, p ≠ [] → ('\n') ∉ p →
      containsSub (FILE_START_MARKER ++ (p ++ ['\n'])) (wrap_file_content p (some [])) = true ∧
      containsSub (FILE_END_MARKER ++ (p ++ ['\n'])) (wrap_file_content p (some [])) = true ∧
      parse_flattened_file (wrap_file_content p (some [])) = [(p, [])]) ∧
    (∀ timestamp sourceDir : List Char,
      generate_flat_config
          (fun fp => if fp = ("init.lua").data then some [] else none) timestamp sourceDir =
        generate_flat_config (fun _ => none) timestamp sourceDir) := by
  constructor
  · intro p hp1 hp2
    refine ⟨?_, ?_, ?_⟩
    · refine (containsSub_eq_true_iff _ _).mpr
        ⟨[], '\n' :: (FILE_END_MARKER ++ (p ++ ('\n' :: '\n' :: []))), ?_⟩
      simp [wrap_file_content]
    · refine (containsSub_eq_true_iff _ _).mpr
        ⟨FILE_START_MARKER ++ (p ++ ['\n', '\n']), ['\n'], ?_⟩
      simp [wrap_file_content]
    · have he : encodeDocs [(p, [])] = wrap_file_content p (some []) := by
        simp [encodeDocs]
      rw [← he,
        parse_encodeDocs [(p, [])] (fun d hd => by
          rw [List.mem_singleton.mp hd]
          exact ⟨hp1, hp2, rfl⟩) (by simp)]
      rfl
  · intro timestamp sourceDir
    rfl

/-- Claim C2 witness: the empty document at path `b.txt` and concrete
timestamp and source strings. -/
theorem C2_empty_content_witness :
    containsSub (FILE_START_MARKER ++ (("b.txt").data ++ ['\n']))
      (wrap_file_content (("b.txt").data) (some [])) = true ∧
    parse_flattened_file (wrap_file_content (("b.txt").data) (some [])) =
      [((("b.txt").data), [])] ∧
    generate_flat_config (fun fp => if fp = ("init.lua").data then some [] else none)
        (("ts").data) (("src").data) =
      generate_flat_config (fun _ => none) (("ts").data) (("src").data) := by
  have h := C2_empty_content
  exact ⟨(h.1 (("b.txt").data) (by decide) (by decide)).1,
    (h.1 (("b.txt").data) (by decide) (by decide)).2.2,
    h.2 (("ts").data) (("src").data)⟩

/-- Claim C3, counterexample: for the single document `("a.lua", "x\n")` the
text captured between the sentinels is `"x\n\n"` (content plus the encoder's
structural newline); removing exactly one trailing line break would leave
`"x\n"`, but `parse_flattened_file` returns `"x"`: `rstrip(chr(10))` removes
every trailing newline, not exactly one. -/
theorem C3_counterexample :
    findall (wrap_file_content (("a.lua").data) (some (("x\n").data))) =
      [((("a.lua").data), ("x\n\n").data)] ∧
    parse_flattened_file (wrap_file_content (("a.lua").data) (some (("x\n").data))) =
      [((("a.lua").data), ("x").data)] ∧
    ("x").data ≠ ("x\n").data := by
  have he : encodeDocs [((("a.lua").data), ("x\n").data)] =
      wrap_file_content (("a.lua").data) (some (("x\n").data)) := by
    simp [encodeDocs]
  refine ⟨?_, ?_, by decide⟩
  · rw [← he, findall_encodeDocs _ (by decide)]
    decide
  · rw [← he, parse_encodeDocs _ (by decide) (by decide)]
    decide

/-- Claim C3, amended: the text captured between the sentinels of a wrapped
section is the content plus the structural newline the encoder appended, and
the decoder removes all trailing line breaks from it, so the recovered
content is `rstrip` of the original: it equals the original exactly when the
original content did not end with any line break. -/
theorem C3_strip_amended (p c : List Char) (hp1 : p ≠ []) (hp2 : ('\n') ∉ p)
    (hc : containsSub FILE_END_MARKER c = false) :
    findall (wrap_file_content p (some c)) = [(p, c ++ ['\n'])] ∧
    parse_flattened_file (wrap_file_content p (some c)) = [(p, rstripNewlines c)] ∧
    (endsWithNewline c = false →
      parse_flattened_file (wrap_file_content p (some c)) = [(p, c)]) := by
  have he : encodeDocs [(p, c)] = wrap_file_content p (some c) := by
    simp [encodeDocs]
  have hval : ∀ d ∈ [(p, c)], d.1 ≠ [] ∧ ('\n') ∉ d.1 ∧
      containsSub FILE_END_MARKER d.2 = false := by
    intro d hd
    rw [List.mem_singleton.mp hd]
    exact ⟨hp1, hp2, hc⟩
  have hparse : parse_flattened_file (wrap_file_content p (some c)) = [(p, rstripNewlines c)] := by
    rw [← he, parse_encodeDocs _ hval (by simp)]
    rfl
  refine ⟨?_, hparse, ?_⟩
  · rw [← he, findall_encodeDocs _ hval]
    rfl
  · intro hE
    rw [hparse, rstrip_eq_self_of_not_endsWith c hE]

/-- Claim C3 witness: the amended statement at `("a.lua", "x\n")` and at the
newline-free content `"y"`. -/
theorem C3_strip_amended_witness :
    parse_flattened_file (wrap_file_content (("a.lua").data) (some (("x\n").data))) =
      [((("a.lua").data), rstripNewlines (("x\n").data))] ∧
    parse_flattened_file (wrap_file_content (("a.lua").data) (some (("y").data))) =
      [((("a.lua").data), ("y").data)] := by
  exact ⟨(C3_strip_amended (("a.lua").data) (("x\n").data) (by decide) (by decide) (by decide)).2.1,
    (C3_strip_amended (("a.lua").data) (("y").data) (by decide) (by decide) (by decide)).2.2
      (by decide)⟩

/-- Claim C4: a Document Set containing both `a.lua` and `a.lua.bak` (one a
strict prefix of the other) decodes each document to its own content in
either order: the end-sentinel search is anchored on the exact captured path,
so the sections do not cross-contaminate.  Contents are assumed not to contain
the end-sentinel prefix (otherwise no content survives encoding intact). -/
theorem C4_prefix_safety (c1 c2 : List Char)
    (h1 : containsSub FILE_END_MARKER c1 = false)
    (h2 : containsSub FILE_END_MARKER c2 = false) :
    parse_flattened_file (encodeDocs [(("a.lua").data, c1), (("a.lua.bak").data, c2)]) =
      [(("a.lua").data, rstripNewlines c1), (("a.lua.bak").data, rstripNewlines c2)] ∧
    parse_flattened_file (encodeDocs [(("a.lua.bak").data, c2), (("a.lua").data, c1)]) =
      [(("a.lua.bak").data, rstripNewlines c2), (("a.lua").data, rstripNewlines c1)] := by
  constructor
  · rw [parse_encodeDocs _ (fun d hd => by
      rcases List.mem_cons.mp hd with hd | hd
      · rw [hd]
        exact ⟨by show ("a.lua").data ≠ []; decide,
          by show ('\n') ∉ ("a.lua").data; decide, h1⟩
      · rw [List.mem_singleton.mp hd]
        exact ⟨by show ("a.lua.bak").data ≠ []; decide,
          by show ('\n') ∉ ("a.lua.bak").data; decide, h2⟩)
      (by show ([("a.lua").data, ("a.lua.bak").data] : List (List Char)).Nodup; decide)]
    rfl
  · rw [parse_encodeDocs _ (fun d hd => by
      rcases List.mem_cons.mp hd with hd | hd
      · rw [hd]
        exact ⟨by show ("a.lua.bak").data ≠ []; decide,
          by show ('\n') ∉ ("a.lua.bak").data; decide, h2⟩
      · rw [List.mem_singleton.mp hd]
        exact ⟨by show ("a.lua").data ≠ []; decide,
          by show ('\n') ∉ ("a.lua").data; decide, h1⟩)
      (by show ([("a.lua.bak").data, ("a.lua").data] : List (List Char)).Nodup; decide)]
    rfl

/-- Claim C4 witness: the prefix pair with concrete contents. -/
theorem C4_prefix_safety_witness :
    parse_flattened_file
        (encodeDocs [(("a.lua").data, ("one").data), (("a.lua.bak").data, ("two").data)]) =
      [(("a.lua").data, rstripNewlines (("one").data)),
       (("a.lua.bak").data, rstripNewlines (("two").data))] :=
  (C4_prefix_safety (("one").data) (("two").data) (by decide) (by decide)).1

/-- Claim C5: for every input on which the sentinel regex recognizes no
start/end pair (`findall` finds no match — in particular any text containing
no start sentinel at all, which is how the witness discharges the
hypothesis), decoding yields zero documents and `unflatten` takes the fatal
path (`sys.exit(1)`), which in the source precedes the creation of the output
directory and every write, so zero files are written. -/
theorem C5_malformed_rejection (s : List Char) (h : findall s = []) :
    parse_flattened_file s = [] ∧ unflatten s = UnflattenResult.fatal ∧
    writtenFiles (unflatten s) = [] := by
  have hp : parse_flattened_file s = [] := by
    unfold parse_flattened_file
    rw [h]
    rfl
  have hu : unflatten s = UnflattenResult.fatal := by
    unfold unflatten
    rw [hp]
    rfl
  exact ⟨hp, hu, by rw [hu]; rfl⟩

/-- Claim C5 witness: a plain text file with no sentinels. -/
theorem C5_malformed_rejection_witness :
    parse_flattened_file (("just some notes\nnothing else\n").data) = [] ∧
    unflatten (("just some notes\nnothing else\n").data) = UnflattenResult.fatal ∧
    writtenFiles (unflatten (("just some notes\nnothing else\n").data)) = [] :=
  C5_malformed_rejection (("just some notes\nnothing else\n").data)
    (findall_eq_nil_of_no_marker _ (by decide))

/-- Claim C6, counterexample: with `init.lua` present (content `"x\n"`),
`a.lua` missing and `b.lua` present but empty, the emitted sections consist
of the `init.lua` section only — no wrapped section is emitted for `b.lua`
although it exists on disk, so the bundle does not contain sections for all
existing requested paths; the same happens in the full `generate_flat_config`
bundle over the fixed `ALL_FILES` request list when
`lua/config/options.lua` exists but is empty: the bundle carries the start
sentinel line of `init.lua` but none for `lua/config/options.lua`. -/
theorem C6_counterexample :
    (fun fp => if fp = ("init.lua").data then some (("x\n").data)
      else if fp = ("lua/config/options.lua").data then some [] else none)
        (("lua/config/options.lua").data) = some [] ∧
    containsSub (FILE_START_MARKER ++ (("init.lua").data ++ ['\n']))
      (generate_flat_config
        (fun fp => if fp = ("init.lua").data then some (("x\n").data)
          else if fp = ("lua/config/options.lua").data then some [] else none)
        SAMPLE_TIMESTAMP SAMPLE_SOURCE_DIR) = true ∧
    containsSub (FILE_START_MARKER ++ (("lua/config/options.lua").data ++ ['\n']))
      (generate_flat_config
        (fun fp => if fp = ("init.lua").data then some (("x\n").data)
          else if fp = ("lua/config/options.lua").data then some [] else none)
        SAMPLE_TIMESTAMP SAMPLE_SOURCE_DIR) = false ∧
    (fun fp => if fp = ("init.lua").data then some (("x\n").data)
      else if fp = ("b.lua").data then some [] else none) (("b.lua").data) = some [] ∧
    generate_sections
        (fun fp => if fp = ("init.lua").data then some (("x\n").data)
          else if fp = ("b.lua").data then some [] else none)
        [("init.lua").data, ("a.lua").data, ("b.lua").data] =
      wrap_file_content (("init.lua").data) (some (("x\n").data)) ∧
    containsSub (FILE_START_MARKER ++ ("b.lua").data)
      (generate_sections
        (fun fp => if fp = ("init.lua").data then some (("x\n").data)
          else if fp = ("b.lua").data then some [] else none)
        [("init.lua").data, ("a.lua").data, ("b.lua").data]) = false := by
  refine ⟨by decide, by decide, by decide, by decide, by decide, by decide⟩

/-- Claim C6, amended: encoding a requested path list produces, in the
original requested order, a wrapped section for exactly those paths that
exist on disk with non-empty content; missing paths (and existing empty
ones, see C2) are omitted; and the flatten process succeeds — exits 0 and
produces the bundle — whenever the entry point `init.lua` exists, regardless
of any other missing path. -/
theorem C6_skip_amended (disk : List Char → Option (List Char))
    (files : List (List Char)) (timestamp sourceDir : List Char)
    (hinit : (disk (("init.lua").data)).isSome = true) :
    generate_sections disk files =
      ((files.filter (fun fp => pythonTruthy (disk fp))).map
        (fun fp => wrap_file_content fp (disk fp))).flatten ∧
    flatten_main disk timestamp sourceDir =
      some (generate_flat_config disk timestamp sourceDir) := by
  constructor
  · induction files with
    | nil => rfl
    | cons fp files ih =>
      unfold generate_sections at ih ⊢
      rw [List.map_cons, List.flatten_cons, ih, List.filter_cons]
      cases ht : pythonTruthy (disk fp) with
      | false =>
        simp only [ht, read_file, if_false]
        rfl
      | true =>
        simp only [ht, read_file, if_true]
        rw [List.map_cons, List.flatten_cons]
  · unfold flatten_main
    rw [if_pos hinit]

/-- Claim C6 witness: the amended statement at the counterexample disk. -/
theorem C6_skip_amended_witness :
    generate_sections
        (fun fp => if fp = ("init.lua").data then some (("x\n").data) else none)
        [("init.lua").data, ("a.lua").data] =
      (([("init.lua").data, ("a.lua").data].filter
          (fun fp => pythonTruthy ((fun fp => if fp = ("init.lua").data
            then some (("x\n").data) else none) fp))).map
        (fun fp => wrap_file_content fp ((fun fp => if fp = ("init.lua").data
          then some (("x\n").data) else none) fp))).flatten ∧
    flatten_main (fun fp => if fp = ("init.lua").data then some (("x\n").data) else none)
        (("ts").data) (("src").data) =
      some (generate_flat_config
        (fun fp => if fp = ("init.lua").data then some (("x\n").data) else none)
        (("ts").data) (("src").data)) :=
  C6_skip_amended _ _ _ _ (by decide)

/-- Claim C7: document decoding does not depend on the metadata block —
deleting a leading block `m` (any text, the metadata block included, that
contains no start sentinel and ends in a line break) leaves the decoded
document sequence unchanged — and `parse_metadata` on a bundle containing no
metadata start sentinel returns the empty mapping instead of failing
(the embedding is a total function: no exception path exists). -/
theorem C7_metadata_independence (m s bundle : List Char)
    (hm1 : containsSub FILE_START_MARKER m = false)
    (hm2 : m.getLast? = some '\n')
    (hb : containsSub META_START_MARKER bundle = false) :
    parse_flattened_file (m ++ s) = parse_flattened_file s ∧
    parse_metadata bundle = [] := by
  constructor
  · unfold parse_flattened_file
    rw [findall_prepend m s (noOccInto_of _ _ (by decide) (by decide) hm1 hm2)]
  · unfold parse_metadata
    have hb2 : containsSub (META_START_MARKER ++ ['\n']) bundle = false := by
      cases hcc : containsSub (META_START_MARKER ++ ['\n']) bundle with
      | false => rfl
      | true =>
        rw [containsSub_mono_left _ _ _ hcc] at hb
        cases hb
    rw [splitFirstOcc_eq_none_of_no_occ _ bundle hb2]

/-- Claim C7 witness: the concrete metadata block (fixed timestamp and source
directory) prepended to the encoding of one document, and a metadata-free
bundle. -/
theorem C7_metadata_independence_witness :
    parse_flattened_file
        (metadataBlock (("2024-01-01 00:00:00").data) (("/cfg/nvim").data) ++
          encodeDocs [(("a.txt").data, ("hi").data)]) =
      parse_flattened_file (encodeDocs [(("a.txt").data, ("hi").data)]) ∧
    parse_metadata (encodeDocs [(("a.txt").data, ("hi").data)]) = [] :=
  C7_metadata_independence
    (metadataBlock (("2024-01-01 00:00:00").data) (("/cfg/nvim").data))
    (encodeDocs [(("a.txt").data, ("hi").data)])
    (encodeDocs [(("a.txt").data, ("hi").data)])
    (by decide) (by decide) (by decide)

theorem trailing_count_append_nl (c : List Char) :
    trailingNewlineCount (c ++ ['\n']) = trailingNewlineCount c + 1 := by
  unfold trailingNewlineCount
  rw [List.reverse_append]
  simp [List.takeWhile_cons]

/-- Claim C8: every document decoded by `parse_flattened_file` has no trailing
line break, so the materializer appends exactly one and the written file ends
with exactly one; and in general the write step appends a newline exactly
when the decoded content lacks one (none is added when one is present). -/
theorem C8_materializer_newline :
    (∀ (s : List Char) (pc : List Char × List Char), pc ∈ parse_flattened_file s →
      writtenFileContent pc.2 = pc.2 ++ ['\n'] ∧
      trailingNewlineCount (writtenFileContent pc.2) = 1) ∧
    (∀ c : List Char, endsWithNewline c = true → writtenFileContent c = c) ∧
    (∀ c : List Char, endsWithNewline c = false → writtenFileContent c = c ++ ['\n']) := by
  have harm2 : ∀ c : List Char, endsWithNewline c = true → writtenFileContent c = c := by
    intro c h
    unfold writtenFileContent
    rw [h]
    rfl
  have harm3 : ∀ c : List Char, endsWithNewline c = false →
      writtenFileContent c = c ++ ['\n'] := by
    intro c h
    unfold writtenFileContent
    rw [h]
    rfl
  refine ⟨?_, harm2, harm3⟩
  intro s pc hpc
  obtain ⟨mm, _, hpc2⟩ := parse_flattened_file_mem s pc hpc
  have hE : endsWithNewline pc.2 = false := by
    rw [hpc2]
    exact rstripNewlines_not_endsWith _
  refine ⟨harm3 _ hE, ?_⟩
  rw [harm3 _ hE, trailing_count_append_nl, trailing_zero_of_not_endsWith pc.2 hE]

/-- Claim C8 witness: a decoded document of the concrete bundle for
`("a.txt", "hi\n")`, plus the two write-step arms at concrete contents. -/
theorem C8_materializer_newline_witness :
    writtenFileContent (("hi").data) = ("hi").data ++ ['\n'] ∧
    trailingNewlineCount (writtenFileContent (("hi").data)) = 1 ∧
    writtenFileContent (("ok\n").data) = ("ok\n").data ∧
    writtenFileContent (("ok").data) = ("ok").data ++ ['\n'] := by
  have hp := parse_encodeDocs [(("a.txt").data, ("hi\n").data)] (by decide) (by decide)
  have hmem : ((("a.txt").data, ("hi").data) : List Char × List Char) ∈
      parse_flattened_file (encodeDocs [(("a.txt").data, ("hi\n").data)]) := by
    rw [hp]
    rw [show List.map (fun d => (d.1, rstripNewlines d.2))
      [(("a.txt").data, ("hi\n").data)] = [(("a.txt").data, ("hi").data)] from by decide]
    exact List.mem_singleton.mpr rfl
  have h := C8_materializer_newline
  exact ⟨(h.1 _ _ hmem).1, (h.1 _ _ hmem).2, h.2.1 _ (by decide), h.2.2 _ (by decide)⟩

/-- Claim C9 (implicit invariant): every content value in the mapping
returned by `parse_flattened_file` ends with no newline character at all —
all trailing newlines are removed, for every input bundle and every
extracted document. -/
theorem C9_no_trailing_newline (s : List Char) (pc : List Char × List Char)
    (h : pc ∈ parse_flattened_file s) :
    endsWithNewline pc.2 = false ∧ trailingNewlineCount pc.2 = 0 := by
  obtain ⟨m, _, hpc⟩ := parse_flattened_file_mem s pc h
  rw [hpc]
  refine ⟨rstripNewlines_not_endsWith _, ?_⟩
  exact trailing_zero_of_not_endsWith _ (rstripNewlines_not_endsWith _)

/-- Claim C9 witness: the document decoded from the bundle for
`("a.txt", "hi\n\n\n")` (three trailing newlines in the original). -/
theorem C9_no_trailing_newline_witness :
    endsWithNewline ((("a.txt").data, ("hi").data) : List Char × List Char).2 = false ∧
    trailingNewlineCount ((("a.txt").data, ("hi").data) : List Char × List Char).2 = 0 := by
  have hp := parse_encodeDocs [(("a.txt").data, ("hi\n\n\n").data)] (by decide) (by decide)
  refine C9_no_trailing_newline (encodeDocs [(("a.txt").data, ("hi\n\n\n").data)]) _ ?_
  rw [hp]
  rw [show List.map (fun d => (d.1, rstripNewlines d.2))
    [(("a.txt").data, ("hi\n\n\n").data)] = [(("a.txt").data, ("hi").data)] from by decide]
  exact List.mem_singleton.mpr rfl

/-- Claim C10 (implicit): the metadata block always reports `file_count` as
the length of the fixed expected path list ALL_FILES (19) and lists all
expected paths in the `files` field, for every state of the disk — the block
is computed before any file is read — while the number of wrapped sections
the category loop emits can be smaller (here: a disk on which only
`init.lua` is non-empty yields 1 section), so after skips `file_count` can
exceed the number of wrapped sections in the bundle. -/
theorem C10_metadata_constant :
    ALL_FILES.length = 19 ∧
    (∀ disk : List Char → Option (List Char),
      parse_metadata (generate_flat_config disk SAMPLE_TIMESTAMP SAMPLE_SOURCE_DIR) =
        [(("generator").data, ("flatten.py").data),
         (("timestamp").data, SAMPLE_TIMESTAMP),
         (("source_dir").data, SAMPLE_SOURCE_DIR),
         (("file_count").data, ("19").data),
         (("files").data, commaJoin ALL_FILES)]) ∧
    (ALL_FILES.filter (fun fp =>
        pythonTruthy (if fp = ("init.lua").data then some (("x").data) else none))).length <
      ALL_FILES.length := by
  refine ⟨by decide, ?_, by decide⟩
  intro disk
  have hmeta_decomp : metadataBlock SAMPLE_TIMESTAMP SAMPLE_SOURCE_DIR =
      (META_START_MARKER ++ ['\n']) ++
        (METADATA_INNER ++ (META_END_MARKER ++ ("\n\n").data)) := by
    decide
  have hgen : generate_flat_config disk SAMPLE_TIMESTAMP SAMPLE_SOURCE_DIR =
      bannerHeader SAMPLE_TIMESTAMP SAMPLE_SOURCE_DIR ++
      ((META_START_MARKER ++ ['\n']) ++
        (METADATA_INNER ++
          (META_END_MARKER ++
            (("\n\n").data ++
              ((categories.map (fun cat =>
                  categoryHeader cat.1 ++ generate_sections disk cat.2)).flatten ++
                footerText))))) := by
    unfold generate_flat_config
    rw [hmeta_decomp]
    simp only [List.append_assoc]
  have hnoB : noOccInto (META_START_MARKER ++ ['\n'])
      (bannerHeader SAMPLE_TIMESTAMP SAMPLE_SOURCE_DIR) :=
    noOccInto_extend _ _ _
      (noOccInto_of _ _ (by decide) (by decide) (by decide) (by decide))
  have hA : splitFirstOcc (META_START_MARKER ++ ['\n'])
      (generate_flat_config disk SAMPLE_TIMESTAMP SAMPLE_SOURCE_DIR) =
      some (bannerHeader SAMPLE_TIMESTAMP SAMPLE_SOURCE_DIR ++ [],
        METADATA_INNER ++
          (META_END_MARKER ++
            (("\n\n").data ++
              ((categories.map (fun cat =>
                  categoryHeader cat.1 ++ generate_sections disk cat.2)).flatten ++
                footerText)))) := by
    rw [hgen, splitFirstOcc_prepend _ _ _ hnoB,
      splitFirstOcc_of_isPrefixOf _ _
        (List.isPrefixOf_iff_prefix.mpr (List.prefix_append _ _)),
      List.drop_left]
    rfl
  have hB : splitFirstOcc META_END_MARKER
      (METADATA_INNER ++
        (META_END_MARKER ++
          (("\n\n").data ++
            ((categories.map (fun cat =>
                categoryHeader cat.1 ++ generate_sections disk cat.2)).flatten ++
              footerText)))) =
      some (METADATA_INNER,
        ("\n\n").data ++
          ((categories.map (fun cat =>
              categoryHeader cat.1 ++ generate_sections disk cat.2)).flatten ++
            footerText)) :=
    splitFirstOcc_exact _ _ _
      (noOccInto_of _ _ (by decide) (by decide) (by decide) (by decide))
  simp only [parse_metadata, hA, hB]
  decide
